/-
Verification of the geometric core of scripts/autoslice_aerostan_t1.py:
bounding boxes, the SVG path-`d` interpreter, proximity clustering,
square cropping, canvas sizing and the top-row selection step.

Coordinates are modelled as rationals (the Python code uses floats for
exact small decimal inputs; the claims under study are about the exact
geometry and control flow, not about rounding of binary floats).
-/
import Mathlib

set_option linter.unusedVariables false

/- Batteries marks the arithmetic on `Rat` `@[irreducible]`, which blocks
`decide` on concrete rational computations; restore reducibility locally so
concrete instances of the definitions below evaluate. -/
attribute [local semireducible] Rat.add Rat.mul Rat.sub Rat.inv Rat.ofScientific

/-! ## Definitions -/

/-- Axis-aligned bounding box, mirroring the Python `BBox` dataclass
with fields `minx, miny, maxx, maxy`. -/
structure BBox where
  minx : ℚ
  miny : ℚ
  maxx : ℚ
  maxy : ℚ
deriving DecidableEq, Repr

/-- `BBox.union`: componentwise min/max, as in the source. -/
def BBox.union (self other : BBox) : BBox :=
  ⟨min self.minx other.minx, min self.miny other.miny,
   max self.maxx other.maxx, max self.maxy other.maxy⟩

/-- `BBox.cx`: horizontal center. -/
def BBox.cx (self : BBox) : ℚ := (self.minx + self.maxx) / 2

/-- `BBox.cy`: vertical center. -/
def BBox.cy (self : BBox) : ℚ := (self.miny + self.maxy) / 2

/-- `BBox.w`: width. -/
def BBox.w (self : BBox) : ℚ := self.maxx - self.minx

/-- `BBox.h`: height. -/
def BBox.h (self : BBox) : ℚ := self.maxy - self.miny

/-- `BBox.overlaps(other, pad)`: the padded separation test of the source,
`not (self.maxx + pad < other.minx or other.maxx + pad < self.minx or
self.maxy + pad < other.miny or other.maxy + pad < self.miny)`. -/
def BBox.overlaps (self other : BBox) (pad : ℚ) : Bool :=
  !(decide (self.maxx + pad < other.minx) || decide (other.maxx + pad < self.minx)
    || decide (self.maxy + pad < other.miny) || decide (other.maxy + pad < self.miny))

/-- Containment of one box in another (an output union box contains each
box merged into it). -/
def BBox.Inside (a b : BBox) : Prop :=
  b.minx ≤ a.minx ∧ b.miny ≤ a.miny ∧ a.maxx ≤ b.maxx ∧ a.maxy ≤ b.maxy

instance (a b : BBox) : Decidable (BBox.Inside a b) := by
  unfold BBox.Inside; infer_instance

/-- One insertion step of the clustering loops: `b` merges into the first
cluster of `out` that passes the padded overlap test (replacing it by the
union), otherwise it is appended at the end.  The boolean reports whether a
merge happened.  This is the inner `for i, c in enumerate(...)` loop of
`cluster_bboxes`. -/
def insertBox (pad : ℚ) (out : List BBox) (b : BBox) : List BBox × Bool :=
  match out with
  | [] => ([b], false)
  | c :: rest =>
    if c.overlaps b pad then (c.union b :: rest, true)
    else
      let r := insertBox pad rest b
      (c :: r.1, r.2)

/-- One whole pass over a list of boxes, inserting each into a growing
output list; the boolean accumulates whether any merge happened.  Both the
greedy first phase and each iteration of the repeat-until-stable loop of
`cluster_bboxes` are this pass. -/
def passGo (pad : ℚ) (out : List BBox) (ch : Bool) : List BBox → List BBox × Bool
  | [] => (out, ch)
  | b :: rest =>
    let r := insertBox pad out b
    passGo pad r.1 (ch || r.2) rest

/-- One pass starting from an empty output list. -/
def passOnce (pad : ℚ) (bs : List BBox) : List BBox × Bool :=
  passGo pad [] false bs

/-- Fuel-indexed form of the repeat-until-stable loop (structural recursion,
so that the kernel can evaluate it on concrete inputs).  With fuel at least
the list length the zero-fuel base case is unreachable, because each merging
pass strictly shortens the list (`passOnce_length_lt`). -/
def clusterLoopF (pad : ℚ) : Nat → List BBox → List BBox
  | 0, cs => cs
  | fuel + 1, cs =>
    let r := passOnce pad cs
    if r.2 then clusterLoopF pad fuel r.1 else r.1

/-- The repeat-until-stable loop of `cluster_bboxes`: run a pass; if it
merged anything, run again on its output, else return.  (The Python loop
`while changed:` always runs at least one pass because `changed` starts
`True`.)  `clusterLoop_eq` below proves this definition satisfies exactly
that recurrence. -/
def clusterLoop (pad : ℚ) (cs : List BBox) : List BBox :=
  clusterLoopF pad cs.length cs

/-- `cluster_bboxes(bboxes, proximity)`: the greedy incremental first phase
(one pass from the empty cluster list) followed by the repeat-until-stable
loop. -/
def cluster_bboxes (bboxes : List BBox) (proximity : ℚ) : List BBox :=
  clusterLoop proximity (passOnce proximity bboxes).1

/-- One abstract merge step on the multiset of current boxes: replace two
boxes that pass the padded overlap test by their union.  Every list
operation performed by `cluster_bboxes` is either a no-op or one such step
on the underlying multiset; used to prove order independence. -/
def MStep (pad : ℚ) (s t : Multiset BBox) : Prop :=
  ∃ u v m, s = u ::ₘ v ::ₘ m ∧ u.overlaps v pad = true ∧ t = u.union v ::ₘ m

/-- Two boxes of the input list are chain-connected when a chain of input
boxes links them, each consecutive pair within `pad` of each other (the
reflexive-transitive closure of the direct padded-overlap relation
restricted to members of `l`). -/
def ChainConn (pad : ℚ) (l : List BBox) (a b : BBox) : Prop :=
  Relation.ReflTransGen (fun u v => u ∈ l ∧ v ∈ l ∧ u.overlaps v pad = true) a b

/-- A multiset of boxes is a normal form of the merge-step relation: no
two of its members (counted with multiplicity) pass the overlap test. -/
def MNF (pad : ℚ) (s : Multiset BBox) : Prop :=
  ∀ t, ¬ MStep pad s t

/-- `crop_to_square(b, pad)`: pad all four sides, then expand the shorter
dimension about the padded center until width equals height. -/
def crop_to_square (b : BBox) (pad : ℚ) : BBox :=
  let minx := b.minx - pad
  let miny := b.miny - pad
  let maxx := b.maxx + pad
  let maxy := b.maxy + pad
  let w := maxx - minx
  let h := maxy - miny
  let side := max w h
  let cx := (minx + maxx) / 2
  let cy := (miny + maxy) / 2
  ⟨cx - side / 2, cy - side / 2, cx + side / 2, cy + side / 2⟩

/-- Python 3 `round` on an exact value: round half to even. -/
def roundHalfEven (q : ℚ) : ℤ :=
  if q - ⌊q⌋ < 1/2 then ⌊q⌋
  else if 1/2 < q - ⌊q⌋ then ⌊q⌋ + 1
  else if ⌊q⌋ % 2 = 0 then ⌊q⌋ else ⌊q⌋ + 1

/-- `svg_canvas_for_viewbox(vb, max_w)`: width is capped at `max_w`; height
follows the aspect ratio (with both viewport dimensions raised to at least
1 by `max(..., 1.0)`) and is then clamped into `[220, 640]`. -/
def svg_canvas_for_viewbox (vb : BBox) (max_w : ℤ) : ℤ × ℤ :=
  let w := max vb.w 1
  let h := max vb.h 1
  let height := roundHalfEven ((max_w : ℚ) * (h / w))
  (max_w, max 220 (min 640 height))

/-- The canvas-height formula exactly as claim C9 words it: a viewport
dimension is floored to 1 only when it is NOT greater than zero.  Defined
from the claim's words (not the source) for comparison with
`svg_canvas_for_viewbox`, which floors every dimension below 1. -/
def claimC9Height (vb : BBox) (max_w : ℤ) : ℤ :=
  let w := if vb.w ≤ 0 then 1 else vb.w
  let h := if vb.h ≤ 0 then 1 else vb.h
  max 220 (min 640 (roundHalfEven ((max_w : ℚ) * (h / w))))

/-- Stable insertion of `x` into a sorted list: `x` goes before the first
element `y` with `le x y` (so, for `le = (key ≤ key)`, before the first
element with key not less than `x`'s — elements with equal keys keep their
relative order, as Python's stable `list.sort`). -/
def orderedInsert (le : BBox → BBox → Bool) (x : BBox) : List BBox → List BBox
  | [] => [x]
  | y :: ys => if le x y then x :: y :: ys else y :: orderedInsert le x ys

/-- Stable insertion sort, modelling Python's stable `list.sort(key=...)`. -/
def stableSort (le : BBox → BBox → Bool) : List BBox → List BBox
  | [] => []
  | x :: xs => orderedInsert le x (stableSort le xs)

/-- The minimum-size filter of `main`: keep clusters with `w > 80 and
h > 60`. -/
def filterClusters (cs : List BBox) : List BBox :=
  cs.filter (fun c => decide (80 < c.w) && decide (60 < c.h))

/-- Materializing `top[0], top[1], top[2]` from the (at most 3 element)
`top` list: in Python an index beyond the end raises `IndexError`,
modelled as `none`. -/
def take3exact (l : List BBox) : Option (List BBox) :=
  match l with
  | t0 :: t1 :: t2 :: _ => some [t0, t1, t2]
  | _ => none

/-- The Selection/Ranking step of `main`: filter by minimum size, sort by
ascending vertical center, take the first three, re-sort those by ascending
horizontal center, and materialize `top[0], top[1], top[2]`. -/
def selectTop3 (clusters : List BBox) : Option (List BBox) :=
  let cs := filterClusters clusters
  let sorted := stableSort (fun a b => decide (a.cy ≤ b.cy)) cs
  let top := sorted.take 3
  let top2 := stableSort (fun a b => decide (a.cx ≤ b.cx)) top
  take3exact top2

/-- A token of the path mini-language, as produced by the source's regex
tokenization `[MmLlHhVvCcSsQqTtAaZz]|number`: a command letter or a
number.  (The string-level regex is abstracted away; claims about
`bbox_from_path_d` are stated over its token stream.) -/
inductive Token where
  | cmd (c : Char)
  | num (q : ℚ)
deriving DecidableEq, Repr

/-- Interpreter state: cursor `(x, y)`, subpath start, and the accumulated
bbox, where `none` plays the role of the source's `inf` sentinels and
becomes `some` exactly when the first point is visited.  `pts` is a ghost
trace of every visited point (it influences nothing) used to state the
"no point was ever visited" claims. -/
structure PState where
  x : ℚ
  y : ℚ
  startX : ℚ
  startY : ℚ
  acc : Option BBox
  pts : List (ℚ × ℚ)
deriving DecidableEq, Repr

/-- The state at the top of `bbox_from_path_d`. -/
def initState : PState := ⟨0, 0, 0, 0, none, []⟩

/-- `add_point(px, py)`: grow the min/max accumulator (and record the
point in the ghost trace). -/
def addPoint (s : PState) (px py : ℚ) : PState :=
  { s with
    acc := match s.acc with
      | none => some ⟨px, py, px, py⟩
      | some b => some ⟨min b.minx px, min b.miny py, max b.maxx px, max b.maxy py⟩
    pts := s.pts ++ [(px, py)] }

/-- `take_numbers(i, n)`: consume up to `n` tokens as floats, stopping
early only at the end of the stream.  A command letter in an argument slot
makes Python's `float(...)` raise `ValueError` — modelled as
`Except.error`. -/
def takeNumbers : List Token → Nat → Except Unit (List ℚ × List Token)
  | ts, 0 => .ok ([], ts)
  | [], _ + 1 => .ok ([], [])
  | Token.num q :: rest, n + 1 =>
    match takeNumbers rest n with
    | .ok (qs, r) => .ok (q :: qs, r)
    | .error e => .error e
  | Token.cmd _ :: _, _ + 1 => .error ()

/-- Fixed argument arity of each command letter (0 for `Z`/`z` and for
anything else, whose numeric followers fall through to the skip-one-token
branch). -/
def arity : Char → Nat
  | 'M' | 'm' | 'L' | 'l' | 'T' | 't' => 2
  | 'H' | 'h' | 'V' | 'v' => 1
  | 'C' | 'c' => 6
  | 'S' | 's' | 'Q' | 'q' => 4
  | 'A' | 'a' => 7
  | _ => 0

/-- After `M`/`m` consumes its first pair the active command becomes
`L`/`l` (implicit lineto); every other command repeats itself. -/
def nextCmd (c : Char) : Char :=
  if c = 'M' then 'L' else if c = 'm' then 'l' else c

/-- The `M`/`m` branch: set cursor and subpath start, visit the point. -/
def cmdMove (c : Char) (ns : List ℚ) (s : PState) : PState :=
  match ns with
  | [a, b] =>
    let nx := if c = 'm' then a + s.x else a
    let ny := if c = 'm' then b + s.y else b
    addPoint { s with x := nx, y := ny, startX := nx, startY := ny } nx ny
  | _ => s

/-- The `L`/`l` branch (also `T`/`t`, whose reflected control point is not
tracked by the source: only the endpoint is visited). -/
def cmdLine (rel : Char) (c : Char) (ns : List ℚ) (s : PState) : PState :=
  match ns with
  | [a, b] =>
    let nx := if c = rel then a + s.x else a
    let ny := if c = rel then b + s.y else b
    addPoint { s with x := nx, y := ny } nx ny
  | _ => s

/-- The `H`/`h` branch. -/
def cmdHoriz (c : Char) (ns : List ℚ) (s : PState) : PState :=
  match ns with
  | [a] =>
    let nx := if c = 'h' then a + s.x else a
    addPoint { s with x := nx } nx s.y
  | _ => s

/-- The `V`/`v` branch. -/
def cmdVert (c : Char) (ns : List ℚ) (s : PState) : PState :=
  match ns with
  | [a] =>
    let ny := if c = 'v' then a + s.y else a
    addPoint { s with y := ny } s.x ny
  | _ => s

/-- The `C`/`c` branch: both control points and the endpoint are visited. -/
def cmdCubic (c : Char) (ns : List ℚ) (s : PState) : PState :=
  match ns with
  | [x1, y1, x2, y2, a, b] =>
    let dx := if c = 'c' then s.x else 0
    let dy := if c = 'c' then s.y else 0
    let s1 := addPoint s (x1 + dx) (y1 + dy)
    let s2 := addPoint s1 (x2 + dx) (y2 + dy)
    addPoint { s2 with x := a + dx, y := b + dy } (a + dx) (b + dy)
  | _ => s

/-- The `S`/`s` and `Q`/`q` branches: one control point plus endpoint. -/
def cmdQuad (rel : Char) (c : Char) (ns : List ℚ) (s : PState) : PState :=
  match ns with
  | [x1, y1, a, b] =>
    let dx := if c = rel then s.x else 0
    let dy := if c = rel then s.y else 0
    let s1 := addPoint s (x1 + dx) (y1 + dy)
    addPoint { s1 with x := a + dx, y := b + dy } (a + dx) (b + dy)
  | _ => s

/-- The `A`/`a` branch: the five arc parameters are discarded, only the
endpoint is visited. -/
def cmdArc (c : Char) (ns : List ℚ) (s : PState) : PState :=
  match ns with
  | [_, _, _, _, _, a, b] =>
    let nx := if c = 'a' then a + s.x else a
    let ny := if c = 'a' then b + s.y else b
    addPoint { s with x := nx, y := ny } nx ny
  | _ => s

/-- Effect of one command with its full argument group on the state,
mirroring the per-command `if cmd in "..."` branches of the source
(lowercase = relative to the cursor at the start of the group). -/
def applyCmd (c : Char) (ns : List ℚ) (s : PState) : PState :=
  if c = 'M' ∨ c = 'm' then cmdMove c ns s
  else if c = 'L' ∨ c = 'l' then cmdLine 'l' c ns s
  else if c = 'H' ∨ c = 'h' then cmdHoriz c ns s
  else if c = 'V' ∨ c = 'v' then cmdVert c ns s
  else if c = 'C' ∨ c = 'c' then cmdCubic c ns s
  else if c = 'S' ∨ c = 's' then cmdQuad 's' c ns s
  else if c = 'Q' ∨ c = 'q' then cmdQuad 'q' c ns s
  else if c = 'T' ∨ c = 't' then cmdLine 't' c ns s
  else if c = 'A' ∨ c = 'a' then cmdArc c ns s
  else s

/-- Fuel-indexed interpreter loop of `bbox_from_path_d` (structural, so
the kernel can evaluate it); the loop consumes at least one token per
iteration, so fuel = stream length suffices and the zero-fuel case is
unreachable (`runAux_eq_*` below establish the intended recurrence).
A letter updates the active command (`Z`/`z` also closes the subpath and
records the start point); a number with no active command breaks
(malformed path); a number under a 0-arity active command is skipped
(the skip-one-token fallthrough); otherwise the active command's arity is
consumed via `takeNumbers` — raising if a letter sits in an argument slot,
breaking with the state accumulated so far if the stream ends early — and
the command's effect is applied, with `M`/`m` switching to implicit
`L`/`l`. -/
def runAuxF : Nat → List Token → Option Char → PState → Except Unit PState
  | 0, _, _, s => .ok s
  | _ + 1, [], _, s => .ok s
  | fuel + 1, Token.cmd c :: rest, _, s =>
    if c = 'Z' ∨ c = 'z' then
      runAuxF fuel rest (some c)
        (addPoint { s with x := s.startX, y := s.startY } s.startX s.startY)
    else runAuxF fuel rest (some c) s
  | _ + 1, Token.num _ :: _, none, s => .ok s
  | fuel + 1, Token.num q :: rest, some c, s =>
    if arity c = 0 then runAuxF fuel rest (some c) s
    else
      match takeNumbers (Token.num q :: rest) (arity c) with
      | .error _ => .error ()
      | .ok (ns, rest2) =>
        if ns.length < arity c then .ok s
        else runAuxF fuel rest2 (some (nextCmd c)) (applyCmd c ns s)

/-- The interpreter loop, with enough fuel for its token stream. -/
def runAux (ts : List Token) (cmdO : Option Char) (s : PState) : Except Unit PState :=
  runAuxF ts.length ts cmdO s

/-- `bbox_from_path_d` over the token stream: `None` for an empty stream,
else the accumulated bbox (absent when no point was visited); `.error`
models an uncaught `ValueError` escaping to the caller. -/
def bbox_from_path (ts : List Token) : Except Unit (Option BBox) :=
  if ts.isEmpty then .ok none
  else
    match runAux ts none initState with
    | .ok s => .ok s.acc
    | .error e => .error e

/-! ## Theorems -/

theorem BBox.overlaps_iff (a b : BBox) (pad : ℚ) :
    a.overlaps b pad = true ↔
      b.minx ≤ a.maxx + pad ∧ a.minx ≤ b.maxx + pad ∧
      b.miny ≤ a.maxy + pad ∧ a.miny ≤ b.maxy + pad := by
  simp [overlaps, not_lt, and_assoc]

theorem BBox.overlaps_comm (a b : BBox) (pad : ℚ) :
    a.overlaps b pad = b.overlaps a pad := by
  rcases hb : b.overlaps a pad with _ | _
  · rcases ha : a.overlaps b pad with _ | _
    · rfl
    · rw [overlaps_iff] at ha
      have := (overlaps_iff b a pad).mpr ⟨ha.2.1, ha.1, ha.2.2.2, ha.2.2.1⟩
      rw [hb] at this; exact this.symm
  · rw [overlaps_iff] at hb
    exact (overlaps_iff a b pad).mpr ⟨hb.2.1, hb.1, hb.2.2.2, hb.2.2.1⟩

theorem BBox.Inside.refl (a : BBox) : BBox.Inside a a :=
  ⟨le_refl _, le_refl _, le_refl _, le_refl _⟩

theorem BBox.inside_union_left (a b : BBox) : BBox.Inside a (a.union b) :=
  ⟨min_le_left _ _, min_le_left _ _, le_max_left _ _, le_max_left _ _⟩

theorem BBox.inside_union_right (a b : BBox) : BBox.Inside b (a.union b) :=
  ⟨min_le_right _ _, min_le_right _ _, le_max_right _ _, le_max_right _ _⟩

theorem BBox.Inside.trans {a b c : BBox} (h1 : BBox.Inside a b)
    (h2 : BBox.Inside b c) : BBox.Inside a c :=
  ⟨le_trans h2.1 h1.1, le_trans h2.2.1 h1.2.1,
   le_trans h1.2.2.1 h2.2.2.1, le_trans h1.2.2.2 h2.2.2.2⟩

/-- Growing both boxes can only make the padded overlap test easier to pass. -/
theorem BBox.overlaps_mono {a b A B : BBox} {pad : ℚ}
    (ha : BBox.Inside a A) (hb : BBox.Inside b B)
    (h : a.overlaps b pad = true) : A.overlaps B pad = true := by
  rw [overlaps_iff] at h ⊢
  obtain ⟨h1, h2, h3, h4⟩ := h
  exact ⟨le_trans hb.1 (le_trans h1 (add_le_add_right ha.2.2.1 pad)),
         le_trans ha.1 (le_trans h2 (add_le_add_right hb.2.2.1 pad)),
         le_trans hb.2.1 (le_trans h3 (add_le_add_right ha.2.2.2 pad)),
         le_trans ha.2.1 (le_trans h4 (add_le_add_right hb.2.2.2 pad))⟩

theorem BBox.union_comm (a b : BBox) : a.union b = b.union a := by
  simp [union, min_comm, max_comm]

theorem BBox.union_assoc (a b c : BBox) :
    (a.union b).union c = a.union (b.union c) := by
  simp [union, min_assoc, max_assoc]

theorem insertBox_length_merge (pad : ℚ) (out : List BBox) (b : BBox)
    (h : (insertBox pad out b).2 = true) :
    (insertBox pad out b).1.length = out.length := by
  induction out with
  | nil => simp [insertBox] at h
  | cons c rest ih =>
    by_cases hc : c.overlaps b pad = true
    · simp [insertBox, hc]
    · simp only [insertBox, hc] at h ⊢
      simp_all

theorem insertBox_length_app (pad : ℚ) (out : List BBox) (b : BBox)
    (h : (insertBox pad out b).2 = false) :
    (insertBox pad out b).1.length = out.length + 1 := by
  induction out with
  | nil => simp [insertBox]
  | cons c rest ih =>
    by_cases hc : c.overlaps b pad = true
    · simp [insertBox, hc] at h
    · simp only [insertBox, hc] at h ⊢
      simp_all

theorem insertBox_length_le (pad : ℚ) (out : List BBox) (b : BBox) :
    (insertBox pad out b).1.length ≤ out.length + 1 := by
  rcases h : (insertBox pad out b).2 with _ | _
  · rw [insertBox_length_app pad out b h]
  · rw [insertBox_length_merge pad out b h]; omega

theorem passGo_length_le (pad : ℚ) :
    ∀ (bs : List BBox) (out : List BBox) (ch : Bool),
    (passGo pad out ch bs).1.length ≤ out.length + bs.length := by
  intro bs
  induction bs with
  | nil => intro out ch; simp [passGo]
  | cons b rest ih =>
    intro out ch
    simp only [passGo]
    calc (passGo pad (insertBox pad out b).1 (ch || (insertBox pad out b).2) rest).1.length
        ≤ (insertBox pad out b).1.length + rest.length := ih _ _
      _ ≤ out.length + 1 + rest.length := by
          have := insertBox_length_le pad out b; omega
      _ = out.length + (b :: rest).length := by simp; omega

theorem passGo_length_lt (pad : ℚ) :
    ∀ (bs : List BBox) (out : List BBox),
    (passGo pad out false bs).2 = true →
    (passGo pad out false bs).1.length < out.length + bs.length := by
  intro bs
  induction bs with
  | nil => intro out h; simp [passGo] at h
  | cons b rest ih =>
    intro out h
    revert h
    simp only [passGo, Bool.false_or]
    cases hm : (insertBox pad out b).2 with
    | false =>
      intro h
      have := ih (insertBox pad out b).1 h
      have hl := insertBox_length_app pad out b hm
      simp only [List.length_cons]
      omega
    | true =>
      intro h
      have := passGo_length_le pad rest (insertBox pad out b).1 true
      have hl := insertBox_length_merge pad out b hm
      simp only [List.length_cons]
      omega

theorem passOnce_length_lt (pad : ℚ) (bs : List BBox)
    (h : (passOnce pad bs).2 = true) : (passOnce pad bs).1.length < bs.length := by
  have := passGo_length_lt pad bs [] h
  simpa [passOnce] using this

theorem clusterLoopF_fuel_succ (pad : ℚ) :
    ∀ (fuel : Nat) (cs : List BBox), cs.length ≤ fuel →
    clusterLoopF pad (fuel + 1) cs = clusterLoopF pad fuel cs := by
  intro fuel
  induction fuel with
  | zero =>
    intro cs hcs
    have : cs = [] := List.length_eq_zero.mp (Nat.le_zero.mp hcs)
    subst this
    rfl
  | succ fuel ih =>
    intro cs hcs
    rcases h : (passOnce pad cs).2 with _ | _
    · conv_lhs => rw [clusterLoopF]
      conv_rhs => rw [clusterLoopF]
      simp [h]
    · have hlt := passOnce_length_lt pad cs h
      conv_lhs => rw [clusterLoopF]
      conv_rhs => rw [clusterLoopF]
      simp only [h, if_true]
      exact ih _ (by omega)

theorem clusterLoopF_fuel_ge (pad : ℚ) :
    ∀ (fuel : Nat) (cs : List BBox), cs.length ≤ fuel →
    clusterLoopF pad fuel cs = clusterLoopF pad cs.length cs := by
  intro fuel
  induction fuel with
  | zero =>
    intro cs hcs
    have h0 : cs.length = 0 := by omega
    rw [h0]
  | succ fuel ih =>
    intro cs hcs
    rcases Nat.lt_or_ge cs.length (fuel + 1) with hlt | hge
    · have h1 : cs.length ≤ fuel := by omega
      rw [clusterLoopF_fuel_succ pad fuel cs h1]
      exact ih cs h1
    · have : cs.length = fuel + 1 := by omega
      rw [this]

/-- The loop satisfies the `while changed` recurrence of the source. -/
theorem clusterLoop_eq (pad : ℚ) (cs : List BBox) :
    clusterLoop pad cs =
      if (passOnce pad cs).2 then clusterLoop pad (passOnce pad cs).1
      else (passOnce pad cs).1 := by
  rcases h : (passOnce pad cs).2 with _ | _
  · simp only [h, Bool.false_eq_true, if_false]
    cases cs with
    | nil => simp [clusterLoop, clusterLoopF, passOnce, passGo]
    | cons b rest =>
      unfold clusterLoop
      simp only [List.length_cons]
      rw [clusterLoopF]
      simp [h]
  · simp only [h, if_true]
    have hlt := passOnce_length_lt pad cs h
    cases cs with
    | nil => simp [passOnce, passGo] at h
    | cons b rest =>
      unfold clusterLoop
      simp only [List.length_cons]
      rw [clusterLoopF]
      simp only [h, if_true]
      simp only [List.length_cons] at hlt
      exact clusterLoopF_fuel_ge pad _ _ (by omega)

example : cluster_bboxes [⟨0,0,100,50⟩, ⟨0,40,90,90⟩, ⟨500,0,600,60⟩] 10
    = [⟨0,0,100,90⟩, ⟨500,0,600,60⟩] := by decide

theorem insertBox_no_merge (pad : ℚ) (out : List BBox) (b : BBox)
    (h : (insertBox pad out b).2 = false) :
    (insertBox pad out b).1 = out ++ [b] ∧
      ∀ c ∈ out, c.overlaps b pad = false := by
  induction out with
  | nil => simp [insertBox]
  | cons c rest ih =>
    by_cases hc : c.overlaps b pad = true
    · simp [insertBox, hc] at h
    · rw [Bool.not_eq_true] at hc
      have hrec : insertBox pad (c :: rest) b
          = (c :: (insertBox pad rest b).1, (insertBox pad rest b).2) := by
        simp [insertBox, hc]
      rw [hrec] at h
      obtain ⟨h1, h2⟩ := ih h
      rw [hrec]
      constructor
      · simp [h1]
      · intro x hx
        rcases List.mem_cons.mp hx with hx | hx
        · subst hx; exact hc
        · exact h2 x hx

theorem passGo_snd_true (pad : ℚ) :
    ∀ (bs : List BBox) (out : List BBox), (passGo pad out true bs).2 = true := by
  intro bs
  induction bs with
  | nil => intro out; rfl
  | cons b rest ih =>
    intro out
    simp only [passGo, Bool.true_or]
    exact ih _

theorem passGo_pairwise (pad : ℚ) :
    ∀ (bs : List BBox) (out : List BBox),
    List.Pairwise (fun a b => a.overlaps b pad = false) out →
    (passGo pad out false bs).2 = false →
    List.Pairwise (fun a b => a.overlaps b pad = false) (passGo pad out false bs).1 := by
  intro bs
  induction bs with
  | nil => intro out hp h; exact hp
  | cons b rest ih =>
    intro out hp h
    revert h
    simp only [passGo, Bool.false_or]
    cases hm : (insertBox pad out b).2 with
    | true =>
      intro h
      rw [passGo_snd_true pad rest] at h
      exact absurd h (by simp)
    | false =>
      intro h
      obtain ⟨heq, hno⟩ := insertBox_no_merge pad out b hm
      rw [heq] at h ⊢
      refine ih (out ++ [b]) ?_ h
      rw [List.pairwise_append]
      refine ⟨hp, List.pairwise_singleton _ _, ?_⟩
      intro a ha x hx
      rw [List.mem_singleton] at hx
      subst hx
      exact hno a ha

theorem passGo_no_change (pad : ℚ) :
    ∀ (bs : List BBox) (out : List BBox),
    (passGo pad out false bs).2 = false →
    (passGo pad out false bs).1 = out ++ bs := by
  intro bs
  induction bs with
  | nil => intro out h; simp [passGo]
  | cons b rest ih =>
    intro out h
    revert h
    simp only [passGo, Bool.false_or]
    cases hm : (insertBox pad out b).2 with
    | true =>
      intro h
      rw [passGo_snd_true pad rest] at h
      exact absurd h (by simp)
    | false =>
      intro h
      obtain ⟨heq, _⟩ := insertBox_no_merge pad out b hm
      rw [heq] at h ⊢
      rw [ih (out ++ [b]) h]
      simp

theorem passOnce_no_change (pad : ℚ) (cs : List BBox)
    (h : (passOnce pad cs).2 = false) : (passOnce pad cs).1 = cs := by
  have := passGo_no_change pad cs [] h
  simpa [passOnce] using this

theorem clusterLoop_pairwise_aux (pad : ℚ) :
    ∀ (n : Nat) (cs : List BBox), cs.length ≤ n →
    List.Pairwise (fun a b => a.overlaps b pad = false) (clusterLoop pad cs) := by
  intro n
  induction n with
  | zero =>
    intro cs hcs
    have : cs = [] := List.length_eq_zero.mp (Nat.le_zero.mp hcs)
    subst this
    simp [clusterLoop, clusterLoopF]
  | succ n ih =>
    intro cs hcs
    rw [clusterLoop_eq]
    rcases h : (passOnce pad cs).2 with _ | _
    · simp only [Bool.false_eq_true, if_false]
      exact passGo_pairwise pad cs [] (List.Pairwise.nil) h
    · simp only [if_true]
      have hlt := passOnce_length_lt pad cs h
      exact ih _ (by omega)

theorem clusterLoop_pairwise (pad : ℚ) (cs : List BBox) :
    List.Pairwise (fun a b => a.overlaps b pad = false) (clusterLoop pad cs) :=
  clusterLoop_pairwise_aux pad cs.length cs (le_refl _)

theorem cluster_bboxes_pairwise (bs : List BBox) (pad : ℚ) :
    List.Pairwise (fun a b => a.overlaps b pad = false) (cluster_bboxes bs pad) :=
  clusterLoop_pairwise pad _

/-- The loop's fixed point really is stable: running one more pass over the
output of the loop merges nothing. -/
theorem clusterLoop_stable_aux (pad : ℚ) :
    ∀ (n : Nat) (cs : List BBox), cs.length ≤ n →
    (passOnce pad (clusterLoop pad cs)).2 = false := by
  intro n
  induction n with
  | zero =>
    intro cs hcs
    have : cs = [] := List.length_eq_zero.mp (Nat.le_zero.mp hcs)
    subst this
    rfl
  | succ n ih =>
    intro cs hcs
    rw [clusterLoop_eq]
    rcases h : (passOnce pad cs).2 with _ | _
    · simp only [Bool.false_eq_true, if_false]
      rw [passOnce_no_change pad cs h]
      exact h
    · simp only [if_true]
      have hlt := passOnce_length_lt pad cs h
      exact ih _ (by omega)

/-- C7: no two distinct output boxes of `cluster_bboxes` pass the padded
overlap test with `pad = proximity`: on some axis their gap strictly
exceeds the proximity. -/
theorem claim_C7 (bs : List BBox) (pad : ℚ) (hpad : 0 ≤ pad) :
    List.Pairwise (fun a b => a.overlaps b pad = false) (cluster_bboxes bs pad) :=
  cluster_bboxes_pairwise bs pad

theorem claim_C7_witness :
    (0 : ℚ) ≤ 10 ∧
      List.Pairwise (fun a b => a.overlaps b (10 : ℚ) = false)
        (cluster_bboxes [⟨0,0,100,50⟩, ⟨0,40,90,90⟩, ⟨500,0,600,60⟩] 10) :=
  ⟨by decide, claim_C7 [⟨0,0,100,50⟩, ⟨0,40,90,90⟩, ⟨500,0,600,60⟩] 10 (by decide)⟩

/-- C10: a pass of the repeat-until-stable loop that merges strictly
decreases the cluster count; a pass that merges nothing is the exit: the
loop returns that pass's (unchanged) output; and the returned fixed point
is genuinely stable. -/
theorem claim_C10 (pad : ℚ) (cs : List BBox) :
    ((passOnce pad cs).2 = true → (passOnce pad cs).1.length < cs.length) ∧
    ((passOnce pad cs).2 = false → clusterLoop pad cs = cs) ∧
    (passOnce pad (clusterLoop pad cs)).2 = false := by
  refine ⟨passOnce_length_lt pad cs, ?_, clusterLoop_stable_aux pad cs.length cs (le_refl _)⟩
  intro h
  rw [clusterLoop_eq]
  simp only [h, Bool.false_eq_true, if_false]
  exact passOnce_no_change pad cs h

theorem claim_C10_witness :
    ((passOnce (0 : ℚ) [⟨0,0,2,2⟩, ⟨1,1,3,3⟩]).2 = true ∧
      (passOnce (0 : ℚ) [⟨0,0,2,2⟩, ⟨1,1,3,3⟩]).1.length < 2) ∧
    ((passOnce (0 : ℚ) [⟨0,0,1,1⟩, ⟨5,5,6,6⟩]).2 = false ∧
      clusterLoop (0 : ℚ) [⟨0,0,1,1⟩, ⟨5,5,6,6⟩] = [⟨0,0,1,1⟩, ⟨5,5,6,6⟩]) :=
  ⟨⟨by decide, (claim_C10 0 [⟨0,0,2,2⟩, ⟨1,1,3,3⟩]).1 (by decide)⟩,
   ⟨by decide, (claim_C10 0 [⟨0,0,1,1⟩, ⟨5,5,6,6⟩]).2.1 (by decide)⟩⟩

/-- C3 counterexample: two boxes sharing only the touching edge `x = 1`
pass the overlap test at proximity 0 and are merged into one output box,
contrary to the claim that they are not merged. -/
theorem claim_C3_counterexample :
    BBox.overlaps ⟨0,0,1,1⟩ ⟨1,0,2,1⟩ 0 = true ∧
      cluster_bboxes [⟨0,0,1,1⟩, ⟨1,0,2,1⟩] 0 = [⟨0,0,2,1⟩] := by
  constructor
  · decide
  · decide

/-- C3 (amended): at proximity 0 the overlap test accepts boundary
equality — it holds iff the boxes' closed coordinate intervals intersect on
both axes, so two boxes sharing only a touching edge DO merge (the strict
inequality sits in the separation test, which equality falsifies); any two
boxes passing the test collapse to their union. -/
theorem claim_C3 :
    (∀ a b : BBox, a.overlaps b 0 = true ↔
      (b.minx ≤ a.maxx ∧ a.minx ≤ b.maxx ∧ b.miny ≤ a.maxy ∧ a.miny ≤ b.maxy)) ∧
    (∀ a b : BBox, a.overlaps b 0 = true → cluster_bboxes [a, b] 0 = [a.union b]) := by
  constructor
  · intro a b
    rw [BBox.overlaps_iff]
    simp
  · intro a b h
    have h1 : passOnce 0 [a, b] = ([a.union b], true) := by
      simp [passOnce, passGo, insertBox, h]
    have h2 : passOnce 0 [a.union b] = ([a.union b], false) := by
      simp [passOnce, passGo, insertBox]
    unfold cluster_bboxes
    rw [h1]
    rw [clusterLoop_eq, h2]
    simp

theorem claim_C3_witness :
    BBox.overlaps ⟨0,0,1,1⟩ ⟨1,0,2,1⟩ 0 = true ∧
      cluster_bboxes [(⟨0,0,1,1⟩ : BBox), ⟨1,0,2,1⟩] 0
        = [BBox.union ⟨0,0,1,1⟩ ⟨1,0,2,1⟩] :=
  ⟨by decide, claim_C3.2 ⟨0,0,1,1⟩ ⟨1,0,2,1⟩ (by decide)⟩

/-- C8: for a non-degenerate box and non-negative padding, the square crop
is square and shares the input box's center.  (The proof uses only the
algebra; the hypotheses mirror the claim's wording.) -/
theorem claim_C8 (b : BBox) (pad : ℚ)
    (hw : b.minx < b.maxx) (hh : b.miny < b.maxy) (hpad : 0 ≤ pad) :
    (crop_to_square b pad).w = (crop_to_square b pad).h ∧
    (crop_to_square b pad).cx = b.cx ∧
    (crop_to_square b pad).cy = b.cy := by
  refine ⟨?_, ?_, ?_⟩
  · simp only [crop_to_square, BBox.w, BBox.h]
    ring
  · simp only [crop_to_square, BBox.cx]
    ring
  · simp only [crop_to_square, BBox.cy]
    ring

theorem claim_C8_witness :
    ((0:ℚ) < 4 ∧ (0:ℚ) < 2 ∧ (0:ℚ) ≤ 1) ∧
    ((crop_to_square ⟨0,0,4,2⟩ 1).w = (crop_to_square ⟨0,0,4,2⟩ 1).h ∧
     (crop_to_square ⟨0,0,4,2⟩ 1).cx = BBox.cx ⟨0,0,4,2⟩ ∧
     (crop_to_square ⟨0,0,4,2⟩ 1).cy = BBox.cy ⟨0,0,4,2⟩) :=
  ⟨⟨by decide, by decide, by decide⟩,
   claim_C8 ⟨0,0,4,2⟩ 1 (by decide) (by decide) (by decide)⟩

/-- C9 counterexample: a viewport of width 1/2 and height 3/4 (both
positive, so the claim's formula floors neither) with `max_w = 300`: the
code floors both dimensions up to 1 (because it takes `max(dim, 1.0)`, not
"floor only when ≤ 0") and returns height 300, while the claim's formula
yields `round(300·(3/4)/(1/2)) = 450`. -/
theorem claim_C9_counterexample :
    (svg_canvas_for_viewbox ⟨0, 0, 1/2, 3/4⟩ 300).2 = 300 ∧
    claimC9Height ⟨0, 0, 1/2, 3/4⟩ 300 = 450 ∧
    (svg_canvas_for_viewbox ⟨0, 0, 1/2, 3/4⟩ 300).2 ≠
      claimC9Height ⟨0, 0, 1/2, 3/4⟩ 300 := by
  refine ⟨by decide, by decide, by decide⟩

/-- C9 (amended): the returned width is `max_w` and the height is
`round(max_w · max(h,1)/max(w,1))` clamped into `[220, 640]` — i.e. each
viewport dimension is raised to 1 whenever it is below 1 (not only when
`≤ 0`), with round-half-to-even; the height always lies in `[220, 640]`. -/
theorem claim_C9 (vb : BBox) (max_w : ℤ) :
    svg_canvas_for_viewbox vb max_w
      = (max_w, max 220 (min 640
          (roundHalfEven ((max_w : ℚ) * (max vb.h 1 / max vb.w 1))))) ∧
    220 ≤ (svg_canvas_for_viewbox vb max_w).2 ∧
    (svg_canvas_for_viewbox vb max_w).2 ≤ 640 := by
  refine ⟨rfl, le_max_left _ _, ?_⟩
  simp only [svg_canvas_for_viewbox]
  exact max_le (by norm_num) (min_le_left _ _)

theorem orderedInsert_length (le : BBox → BBox → Bool) (x : BBox) :
    ∀ m : List BBox, (orderedInsert le x m).length = m.length + 1 := by
  intro m
  induction m with
  | nil => rfl
  | cons y ys ihm =>
    by_cases hxy : le x y = true
    · simp [orderedInsert, hxy]
    · rw [Bool.not_eq_true] at hxy
      simp [orderedInsert, hxy, ihm]

theorem stableSort_length (le : BBox → BBox → Bool) :
    ∀ l : List BBox, (stableSort le l).length = l.length := by
  intro l
  induction l with
  | nil => rfl
  | cons x xs ih =>
    simp [stableSort, orderedInsert_length, ih]

theorem take3exact_none_iff (l : List BBox) :
    take3exact l = none ↔ l.length < 3 := by
  match l with
  | [] => simp [take3exact]
  | [a] => simp [take3exact]
  | [a, b] => simp [take3exact]
  | a :: b :: c :: rest => simp [take3exact]

theorem take3exact_some_length (l m : List BBox)
    (h : take3exact l = some m) : m.length = 3 := by
  match l with
  | [] => simp [take3exact] at h
  | [a] => simp [take3exact] at h
  | [a, b] => simp [take3exact] at h
  | a :: b :: c :: rest =>
    simp only [take3exact, Option.some_inj] at h
    subst h
    rfl

/-- C2: the Selection/Ranking step fails (Python: `top[2]` raises
`IndexError`, modelled `none`) exactly when fewer than 3 clusters survive
the minimum-size filter, and a successful result always has exactly 3
elements — it never succeeds with a shorter list. -/
theorem claim_C2 (clusters : List BBox) :
    (selectTop3 clusters = none ↔ (filterClusters clusters).length < 3) ∧
    (∀ l, selectTop3 clusters = some l → l.length = 3) := by
  have hlen : (stableSort (fun a b => decide (a.cx ≤ b.cx))
      ((stableSort (fun a b => decide (a.cy ≤ b.cy))
        (filterClusters clusters)).take 3)).length
      = min 3 (filterClusters clusters).length := by
    rw [stableSort_length, List.length_take, stableSort_length]
  constructor
  · unfold selectTop3
    rw [take3exact_none_iff, hlen]
    omega
  · intro l h
    unfold selectTop3 at h
    exact take3exact_some_length _ l h

theorem claim_C2_witness :
    (filterClusters [⟨0,0,100,70⟩, ⟨200,0,300,70⟩]).length < 3 ∧
      selectTop3 [⟨0,0,100,70⟩, ⟨200,0,300,70⟩] = none :=
  ⟨by decide, (claim_C2 [⟨0,0,100,70⟩, ⟨200,0,300,70⟩]).1.mpr (by decide)⟩

theorem insertBox_coverage (pad : ℚ) (out : List BBox) (b : BBox) :
    (∀ x, (∃ c ∈ out, BBox.Inside x c) →
      ∃ c ∈ (insertBox pad out b).1, BBox.Inside x c) ∧
    (∃ c ∈ (insertBox pad out b).1, BBox.Inside b c) := by
  induction out with
  | nil =>
    constructor
    · intro x hx
      obtain ⟨c, hc, _⟩ := hx
      cases hc
    · exact ⟨b, by simp [insertBox], BBox.Inside.refl b⟩
  | cons c rest ih =>
    by_cases hc : c.overlaps b pad = true
    · have hrec : insertBox pad (c :: rest) b = (c.union b :: rest, true) := by
        simp [insertBox, hc]
      rw [hrec]
      constructor
      · intro x hx
        obtain ⟨c0, hc0, hin⟩ := hx
        rcases List.mem_cons.mp hc0 with h0 | h0
        · subst h0
          exact ⟨c0.union b, List.mem_cons_self _ _,
            hin.trans (BBox.inside_union_left c0 b)⟩
        · exact ⟨c0, List.mem_cons_of_mem _ h0, hin⟩
      · exact ⟨c.union b, List.mem_cons_self _ _, BBox.inside_union_right c b⟩
    · rw [Bool.not_eq_true] at hc
      have hrec : insertBox pad (c :: rest) b
          = (c :: (insertBox pad rest b).1, (insertBox pad rest b).2) := by
        simp [insertBox, hc]
      rw [hrec]
      constructor
      · intro x hx
        obtain ⟨c0, hc0, hin⟩ := hx
        rcases List.mem_cons.mp hc0 with h0 | h0
        · subst h0
          exact ⟨c0, List.mem_cons_self _ _, hin⟩
        · obtain ⟨c1, hc1, hin1⟩ := ih.1 x ⟨c0, h0, hin⟩
          exact ⟨c1, List.mem_cons_of_mem _ hc1, hin1⟩
      · obtain ⟨c1, hc1, hin1⟩ := ih.2
        exact ⟨c1, List.mem_cons_of_mem _ hc1, hin1⟩

theorem passGo_coverage (pad : ℚ) :
    ∀ (bs : List BBox) (out : List BBox) (ch : Bool) (x : BBox),
    ((∃ c ∈ out, BBox.Inside x c) ∨ x ∈ bs) →
    ∃ c ∈ (passGo pad out ch bs).1, BBox.Inside x c := by
  intro bs
  induction bs with
  | nil =>
    intro out ch x hx
    rcases hx with hx | hx
    · exact hx
    · cases hx
  | cons b rest ih =>
    intro out ch x hx
    simp only [passGo]
    rcases hx with hx | hx
    · exact ih _ _ x (Or.inl ((insertBox_coverage pad out b).1 x hx))
    · rcases List.mem_cons.mp hx with h0 | h0
      · subst h0
        exact ih _ _ x (Or.inl ((insertBox_coverage pad out x).2))
      · exact ih _ _ x (Or.inr h0)

theorem clusterLoop_coverage_aux (pad : ℚ) :
    ∀ (n : Nat) (cs : List BBox), cs.length ≤ n →
    ∀ x ∈ cs, ∃ o ∈ clusterLoop pad cs, BBox.Inside x o := by
  intro n
  induction n with
  | zero =>
    intro cs hcs x hx
    have : cs = [] := List.length_eq_zero.mp (Nat.le_zero.mp hcs)
    subst this
    cases hx
  | succ n ih =>
    intro cs hcs x hx
    rw [clusterLoop_eq]
    rcases h : (passOnce pad cs).2 with _ | _
    · simp only [Bool.false_eq_true, if_false]
      rw [passOnce_no_change pad cs h]
      exact ⟨x, hx, BBox.Inside.refl x⟩
    · simp only [if_true]
      have hlt := passOnce_length_lt pad cs h
      obtain ⟨c, hcmem, hin⟩ := passGo_coverage pad cs [] false x (Or.inr hx)
      obtain ⟨o, ho, hin2⟩ := ih (passOnce pad cs).1 (by omega) c hcmem
      exact ⟨o, ho, hin.trans hin2⟩

/-- Every input box ends up inside some output box of `cluster_bboxes`. -/
theorem cluster_bboxes_coverage (bs : List BBox) (pad : ℚ) :
    ∀ x ∈ bs, ∃ o ∈ cluster_bboxes bs pad, BBox.Inside x o := by
  intro x hx
  obtain ⟨c, hcmem, hin⟩ := passGo_coverage pad bs [] false x (Or.inr hx)
  obtain ⟨o, ho, hin2⟩ :=
    clusterLoop_coverage_aux pad (passOnce pad bs).1.length (passOnce pad bs).1
      (le_refl _) c hcmem
  exact ⟨o, ho, hin.trans hin2⟩

/-- C1 counterexample: with proximity 4, the tall box `A = (0,0,1,10)` and
the wide box `B = (5,0,15,1)` merge (x-gap 4); their union `(0,0,15,10)`
then absorbs `C = (11,12,12,13)` (y-gap 2 to the union), although `C` is
not within proximity of `A` or of `B` individually — so `A` and `C` share
an output box with no connecting chain of input boxes, refuting the
"only if" direction of the claim. -/
theorem claim_C1_counterexample :
    (∃ o ∈ cluster_bboxes [⟨0,0,1,10⟩, ⟨5,0,15,1⟩, ⟨11,12,12,13⟩] 4,
        BBox.Inside ⟨0,0,1,10⟩ o ∧ BBox.Inside ⟨11,12,12,13⟩ o) ∧
    ¬ ChainConn 4 [⟨0,0,1,10⟩, ⟨5,0,15,1⟩, ⟨11,12,12,13⟩]
        ⟨0,0,1,10⟩ ⟨11,12,12,13⟩ := by
  constructor
  · refine ⟨⟨0,0,15,13⟩, ?_, ?_, ?_⟩
    · have hc : cluster_bboxes [⟨0,0,1,10⟩, ⟨5,0,15,1⟩, ⟨11,12,12,13⟩] 4
          = [⟨0,0,15,13⟩] := by decide
      rw [hc]
      exact List.mem_singleton_self _
    · decide
    · decide
  · intro h
    have key : ∀ x : BBox,
        ChainConn 4 [⟨0,0,1,10⟩, ⟨5,0,15,1⟩, ⟨11,12,12,13⟩] ⟨0,0,1,10⟩ x →
        x = ⟨0,0,1,10⟩ ∨ x = ⟨5,0,15,1⟩ := by
      intro x hx
      induction hx with
      | refl => left; rfl
      | @tail u v hau huv ih =>
        obtain ⟨hu, hv, hov⟩ := huv
        have hv3 : v = (⟨0,0,1,10⟩ : BBox) ∨ v = (⟨5,0,15,1⟩ : BBox) ∨
            v = (⟨11,12,12,13⟩ : BBox) := by simpa using hv
        rcases hv3 with h1 | h1 | h1
        · left; exact h1
        · right; exact h1
        · exfalso
          subst h1
          rcases ih with h2 | h2 <;> subst h2
          · exact absurd hov (by decide)
          · exact absurd hov (by decide)
    rcases key _ h with h1 | h1 <;> exact absurd h1 (by decide)

/-- C1 (amended): the "if" direction holds — chain-connected input boxes
(each consecutive pair within `proximity` by the per-axis padded overlap
test) always end up inside the same output box of `cluster_bboxes`.  The
"only if" direction of the claim is false (see the counterexample): merging
is tested against grown cluster union boxes, so an input can be absorbed
into an output box without an input-level chain. -/
theorem claim_C1 (bs : List BBox) (pad : ℚ) (a b : BBox)
    (ha : a ∈ bs) (h : ChainConn pad bs a b) :
    ∃ o ∈ cluster_bboxes bs pad, BBox.Inside a o ∧ BBox.Inside b o := by
  induction h with
  | refl =>
    obtain ⟨o, ho, hin⟩ := cluster_bboxes_coverage bs pad a ha
    exact ⟨o, ho, hin, hin⟩
  | @tail u v hau huv ih =>
    obtain ⟨hu, hv, hov⟩ := huv
    obtain ⟨o, ho, hina, hinu⟩ := ih
    obtain ⟨o2, ho2, hinv⟩ := cluster_bboxes_coverage bs pad v hv
    by_cases heq : o = o2
    · subst heq
      exact ⟨o, ho, hina, hinv⟩
    · exfalso
      have hsymm : Symmetric (fun x y : BBox => x.overlaps y pad = false) := by
        intro x y hxy
        rw [BBox.overlaps_comm]
        exact hxy
      have hno := List.Pairwise.forall hsymm (cluster_bboxes_pairwise bs pad) ho ho2 heq
      have hyes := BBox.overlaps_mono hinu hinv hov
      rw [hno] at hyes
      cases hyes

theorem claim_C1_witness :
    (⟨0,0,1,1⟩ : BBox) ∈ [(⟨0,0,1,1⟩ : BBox), ⟨1,0,2,1⟩] ∧
    ∃ o ∈ cluster_bboxes [(⟨0,0,1,1⟩ : BBox), ⟨1,0,2,1⟩] 0,
      BBox.Inside ⟨0,0,1,1⟩ o ∧ BBox.Inside ⟨1,0,2,1⟩ o :=
  ⟨by decide,
   claim_C1 [⟨0,0,1,1⟩, ⟨1,0,2,1⟩] 0 ⟨0,0,1,1⟩ ⟨1,0,2,1⟩ (by decide)
     (Relation.ReflTransGen.single ⟨by decide, by decide, by decide⟩)⟩

theorem BBox.overlaps_union_left {u v w : BBox} {pad : ℚ}
    (h : u.overlaps v pad = true) : (u.union w).overlaps v pad = true :=
  BBox.overlaps_mono (BBox.inside_union_left u w) (BBox.Inside.refl v) h

theorem BBox.overlaps_union_left2 {u v w : BBox} {pad : ℚ}
    (h : u.overlaps v pad = true) : (w.union u).overlaps v pad = true :=
  BBox.overlaps_mono (BBox.inside_union_right w u) (BBox.Inside.refl v) h

theorem BBox.overlaps_union_right {u v w : BBox} {pad : ℚ}
    (h : u.overlaps v pad = true) : u.overlaps (v.union w) pad = true :=
  BBox.overlaps_mono (BBox.Inside.refl u) (BBox.inside_union_left v w) h

theorem BBox.overlaps_union_right2 {u v w : BBox} {pad : ℚ}
    (h : u.overlaps v pad = true) : u.overlaps (w.union v) pad = true :=
  BBox.overlaps_mono (BBox.Inside.refl u) (BBox.inside_union_right w v) h

theorem mstep_of (pad : ℚ) {s t : Multiset BBox} (u v : BBox) (m : Multiset BBox)
    (hs : s = u ::ₘ v ::ₘ m) (hov : u.overlaps v pad = true)
    (ht : t = u.union v ::ₘ m) : MStep pad s t :=
  ⟨u, v, m, hs, hov, ht⟩

/-- Diamond property of merge steps: two different merges from the same
multiset re-converge in at most one further step on each side (the merged
union boxes still pass the overlap test against anything their members
passed it against, by monotonicity of the overlap test under union). -/
theorem mstep_diamond (pad : ℚ) {s t1 t2 : Multiset BBox}
    (h1 : MStep pad s t1) (h2 : MStep pad s t2) :
    ∃ d, Relation.ReflGen (MStep pad) t1 d ∧
      Relation.ReflTransGen (MStep pad) t2 d := by
  obtain ⟨u, v, m, hs1, hov1, ht1⟩ := h1
  obtain ⟨p, q, n, hs2, hov2, ht2⟩ := h2
  subst ht1
  subst ht2
  rw [hs1] at hs2
  rcases Multiset.cons_eq_cons.mp hs2 with ⟨hup, hrest⟩ | ⟨hne, cs, hvm, hqn⟩
  · subst hup
    rcases Multiset.cons_eq_cons.mp hrest with ⟨hvq, hmn⟩ | ⟨hvq, ds, hm, hn⟩
    · subst hvq
      subst hmn
      exact ⟨u.union v ::ₘ m, Relation.ReflGen.refl, Relation.ReflTransGen.refl⟩
    · subst hm
      subst hn
      refine ⟨(u.union v).union q ::ₘ ds, Relation.ReflGen.single ?_,
        Relation.ReflTransGen.single ?_⟩
      · exact mstep_of pad (u.union v) q ds rfl (BBox.overlaps_union_left hov2) rfl
      · refine mstep_of pad (u.union q) v ds rfl (BBox.overlaps_union_left hov1) ?_
        rw [BBox.union_assoc, BBox.union_assoc, BBox.union_comm q v]
  · rcases Multiset.cons_eq_cons.mp hvm with ⟨hvp, hmcs⟩ | ⟨hvp, ds, hm, hcs⟩
    · subst hvp
      subst hmcs
      rcases Multiset.cons_eq_cons.mp hqn with ⟨hqu, hnm⟩ | ⟨hqu, es, hn, hm2⟩
      · rw [hqu, hnm]
        refine ⟨u.union v ::ₘ m, Relation.ReflGen.refl, ?_⟩
        rw [BBox.union_comm v u]
      · subst hn
        subst hm2
        refine ⟨(u.union v).union q ::ₘ es, Relation.ReflGen.single ?_,
          Relation.ReflTransGen.single ?_⟩
        · exact mstep_of pad (u.union v) q es rfl (BBox.overlaps_union_left2 hov2) rfl
        · refine mstep_of pad u (v.union q) es (Multiset.cons_swap _ _ _)
            (BBox.overlaps_union_right hov1) ?_
          rw [BBox.union_assoc]
    · subst hm
      subst hcs
      rcases Multiset.cons_eq_cons.mp hqn with ⟨hqu, hn⟩ | ⟨hqu, es, hn, hes⟩
      · subst hn
        rw [hqu] at hov2
        rw [hqu]
        refine ⟨p.union (u.union v) ::ₘ ds, Relation.ReflGen.single ?_,
          Relation.ReflTransGen.single ?_⟩
        · exact mstep_of pad p (u.union v) ds (Multiset.cons_swap _ _ _)
            (BBox.overlaps_union_right hov2) rfl
        · refine mstep_of pad (p.union u) v ds rfl (BBox.overlaps_union_left2 hov1) ?_
          rw [BBox.union_assoc]
      · rcases Multiset.cons_eq_cons.mp hes with ⟨hvq, hde⟩ | ⟨hvq, fs, hds, hesf⟩
        · subst hvq
          subst hde
          subst hn
          refine ⟨p.union (u.union v) ::ₘ ds, Relation.ReflGen.single ?_,
            Relation.ReflTransGen.single ?_⟩
          · exact mstep_of pad p (u.union v) ds (Multiset.cons_swap _ _ _)
              (BBox.overlaps_union_right2 hov2) rfl
          · refine mstep_of pad u (p.union v) ds (Multiset.cons_swap _ _ _)
              (BBox.overlaps_union_right2 hov1) ?_
            rw [← BBox.union_assoc, BBox.union_comm p u, BBox.union_assoc]
        · subst hds
          subst hesf
          subst hn
          refine ⟨p.union q ::ₘ (u.union v) ::ₘ fs, Relation.ReflGen.single ?_,
            Relation.ReflTransGen.single ?_⟩
          · refine mstep_of pad p q ((u.union v) ::ₘ fs) ?_ hov2 rfl
            rw [Multiset.cons_swap (u.union v) p, Multiset.cons_swap (u.union v) q]
          · refine mstep_of pad u v (p.union q ::ₘ fs) ?_ hov1 ?_
            · rw [Multiset.cons_swap (p.union q) u, Multiset.cons_swap (p.union q) v]
            · rw [Multiset.cons_swap]

theorem mstep_rtg_join (pad : ℚ) {a b c : Multiset BBox}
    (hab : Relation.ReflTransGen (MStep pad) a b)
    (hac : Relation.ReflTransGen (MStep pad) a c) :
    Relation.Join (Relation.ReflTransGen (MStep pad)) b c :=
  Relation.church_rosser (fun _ _ _ h1 h2 => mstep_diamond pad h1 h2) hab hac

theorem mnf_rtg_eq (pad : ℚ) {s t : Multiset BBox} (hnf : MNF pad s)
    (h : Relation.ReflTransGen (MStep pad) s t) : t = s := by
  rcases Relation.ReflTransGen.cases_head h with h1 | ⟨c, hc, _⟩
  · exact h1.symm
  · exact absurd hc (hnf c)

/-- Uniqueness of normal forms for the merge-step relation. -/
theorem mnf_unique (pad : ℚ) {s t1 t2 : Multiset BBox}
    (h1 : Relation.ReflTransGen (MStep pad) s t1)
    (h2 : Relation.ReflTransGen (MStep pad) s t2)
    (hn1 : MNF pad t1) (hn2 : MNF pad t2) : t1 = t2 := by
  obtain ⟨d, hd1, hd2⟩ := mstep_rtg_join pad h1 h2
  rw [← mnf_rtg_eq pad hn1 hd1, ← mnf_rtg_eq pad hn2 hd2]

theorem mstep_cons (pad : ℚ) {s t : Multiset BBox} (a : BBox)
    (h : MStep pad s t) : MStep pad (a ::ₘ s) (a ::ₘ t) := by
  obtain ⟨u, v, m, hs, hov, ht⟩ := h
  refine mstep_of pad u v (a ::ₘ m) ?_ hov ?_
  · rw [hs, Multiset.cons_swap a u, Multiset.cons_swap a v]
  · rw [ht, Multiset.cons_swap]

theorem rtg_mstep_cons (pad : ℚ) {s t : Multiset BBox} (a : BBox)
    (h : Relation.ReflTransGen (MStep pad) s t) :
    Relation.ReflTransGen (MStep pad) (a ::ₘ s) (a ::ₘ t) := by
  induction h with
  | refl => exact Relation.ReflTransGen.refl
  | tail _ hbc ih => exact Relation.ReflTransGen.tail ih (mstep_cons pad a hbc)

theorem insertBox_rtg (pad : ℚ) :
    ∀ (out : List BBox) (b : BBox) (M : Multiset BBox),
    Relation.ReflTransGen (MStep pad)
      ((↑out : Multiset BBox) + (b ::ₘ M))
      ((↑(insertBox pad out b).1 : Multiset BBox) + M) := by
  intro out
  induction out with
  | nil =>
    intro b M
    have : ((↑([] : List BBox) : Multiset BBox) + (b ::ₘ M))
        = ((↑(insertBox pad [] b).1 : Multiset BBox) + M) := by
      show (0 : Multiset BBox) + (b ::ₘ M) = (↑[b] : Multiset BBox) + M
      simp [Multiset.coe_singleton, Multiset.singleton_add]
    rw [this]
  | cons c rest ih =>
    intro b M
    by_cases hc : c.overlaps b pad = true
    · have hres : insertBox pad (c :: rest) b = (c.union b :: rest, true) := by
        simp [insertBox, hc]
      rw [hres]
      refine Relation.ReflTransGen.single ?_
      refine mstep_of pad c b ((↑rest : Multiset BBox) + M) ?_ hc ?_
      · rw [← Multiset.cons_coe, Multiset.cons_add, Multiset.add_cons]
      · rw [← Multiset.cons_coe, Multiset.cons_add]
    · rw [Bool.not_eq_true] at hc
      have hres : insertBox pad (c :: rest) b
          = (c :: (insertBox pad rest b).1, (insertBox pad rest b).2) := by
        simp [insertBox, hc]
      rw [hres]
      have step := rtg_mstep_cons pad c (ih b M)
      have e1 : ((↑(c :: rest) : Multiset BBox) + (b ::ₘ M))
          = c ::ₘ ((↑rest : Multiset BBox) + (b ::ₘ M)) := by
        rw [← Multiset.cons_coe, Multiset.cons_add]
      have e2 : ((↑(c :: (insertBox pad rest b).1) : Multiset BBox) + M)
          = c ::ₘ ((↑(insertBox pad rest b).1 : Multiset BBox) + M) := by
        rw [← Multiset.cons_coe, Multiset.cons_add]
      rw [e1, e2]
      exact step

theorem passGo_rtg (pad : ℚ) :
    ∀ (bs : List BBox) (out : List BBox) (ch : Bool),
    Relation.ReflTransGen (MStep pad)
      ((↑out : Multiset BBox) + (↑bs : Multiset BBox))
      (↑(passGo pad out ch bs).1 : Multiset BBox) := by
  intro bs
  induction bs with
  | nil =>
    intro out ch
    have : ((↑out : Multiset BBox) + (↑([] : List BBox) : Multiset BBox))
        = (↑(passGo pad out ch []).1 : Multiset BBox) := by
      simp [passGo]
    rw [this]
  | cons b rest ih =>
    intro out ch
    have e1 : ((↑out : Multiset BBox) + (↑(b :: rest) : Multiset BBox))
        = (↑out : Multiset BBox) + (b ::ₘ (↑rest : Multiset BBox)) := by
      rw [Multiset.cons_coe]
    rw [e1]
    refine Relation.ReflTransGen.trans (insertBox_rtg pad out b ↑rest) ?_
    simp only [passGo]
    exact ih _ _

theorem passOnce_rtg (pad : ℚ) (cs : List BBox) :
    Relation.ReflTransGen (MStep pad) (↑cs : Multiset BBox)
      (↑(passOnce pad cs).1 : Multiset BBox) := by
  have := passGo_rtg pad cs [] false
  simpa [passOnce] using this

theorem clusterLoop_rtg_aux (pad : ℚ) :
    ∀ (n : Nat) (cs : List BBox), cs.length ≤ n →
    Relation.ReflTransGen (MStep pad) (↑cs : Multiset BBox)
      (↑(clusterLoop pad cs) : Multiset BBox) := by
  intro n
  induction n with
  | zero =>
    intro cs hcs
    have : cs = [] := List.length_eq_zero.mp (Nat.le_zero.mp hcs)
    subst this
    exact Relation.ReflTransGen.refl
  | succ n ih =>
    intro cs hcs
    rw [clusterLoop_eq]
    rcases h : (passOnce pad cs).2 with _ | _
    · simp only [Bool.false_eq_true, if_false]
      rw [passOnce_no_change pad cs h]
    · simp only [if_true]
      have hlt := passOnce_length_lt pad cs h
      exact Relation.ReflTransGen.trans (passOnce_rtg pad cs) (ih _ (by omega))

theorem cluster_bboxes_rtg (bs : List BBox) (pad : ℚ) :
    Relation.ReflTransGen (MStep pad) (↑bs : Multiset BBox)
      (↑(cluster_bboxes bs pad) : Multiset BBox) := by
  unfold cluster_bboxes
  exact Relation.ReflTransGen.trans (passOnce_rtg pad bs)
    (clusterLoop_rtg_aux pad (passOnce pad bs).1.length _ (le_refl _))

theorem pairwise_erase_rel {R : BBox → BBox → Prop} (hsymm : Symmetric R) :
    ∀ (l : List BBox) (u v : BBox), l.Pairwise R → u ∈ l → v ∈ l.erase u →
    R u v := by
  intro l
  induction l with
  | nil =>
    intro u v _ hu _
    cases hu
  | cons a t ih =>
    intro u v hp hu hv
    by_cases hau : a = u
    · subst hau
      rw [List.erase_cons_head] at hv
      exact (List.pairwise_cons.mp hp).1 v hv
    · rw [List.erase_cons_tail (by simpa using hau)] at hv
      have hu' : u ∈ t := by
        rcases List.mem_cons.mp hu with h | h
        · exact absurd h.symm hau
        · exact h
      rcases List.mem_cons.mp hv with hva | hvt
      · subst hva
        exact hsymm ((List.pairwise_cons.mp hp).1 u hu')
      · exact ih u v (List.pairwise_cons.mp hp).2 hu' hvt

/-- A pairwise non-overlapping list of boxes is a normal form of the
merge-step relation. -/
theorem pairwise_mnf (pad : ℚ) (l : List BBox)
    (hp : List.Pairwise (fun a b => a.overlaps b pad = false) l) :
    MNF pad (↑l : Multiset BBox) := by
  intro t hstep
  obtain ⟨u, v, m, hs, hov, _⟩ := hstep
  have hu : u ∈ l := by
    have : u ∈ (↑l : Multiset BBox) := by
      rw [hs]
      exact Multiset.mem_cons_self _ _
    exact Multiset.mem_coe.mp this
  have hv : v ∈ l.erase u := by
    have h1 : (↑l : Multiset BBox).erase u = v ::ₘ m := by
      rw [hs, Multiset.erase_cons_head]
    have h2 : v ∈ (↑l : Multiset BBox).erase u := by
      rw [h1]
      exact Multiset.mem_cons_self _ _
    rw [Multiset.coe_erase] at h2
    exact Multiset.mem_coe.mp h2
  have hsymm : Symmetric (fun a b : BBox => a.overlaps b pad = false) := by
    intro x y hxy
    rw [BBox.overlaps_comm]
    exact hxy
  have := pairwise_erase_rel hsymm l u v hp hu hv
  rw [this] at hov
  cases hov

/-- C4: clustering is order-independent — permuting the input list leaves
the output of `cluster_bboxes` unchanged as a multiset, hence as an
unordered set of coordinate quadruples.  (The two runs are merge-step
reductions from the same multiset, both ending in normal forms, and the
merge-step relation has unique normal forms by the diamond property.) -/
theorem claim_C4 (bs bs2 : List BBox) (pad : ℚ) (hperm : bs.Perm bs2) :
    (↑(cluster_bboxes bs pad) : Multiset BBox) = ↑(cluster_bboxes bs2 pad) ∧
    ∀ b : BBox, b ∈ cluster_bboxes bs pad ↔ b ∈ cluster_bboxes bs2 pad := by
  have hcoe : (↑bs : Multiset BBox) = ↑bs2 := Multiset.coe_eq_coe.mpr hperm
  have h1 := cluster_bboxes_rtg bs pad
  have h2 := cluster_bboxes_rtg bs2 pad
  rw [← hcoe] at h2
  have heq := mnf_unique pad h1 h2
    (pairwise_mnf pad _ (cluster_bboxes_pairwise bs pad))
    (pairwise_mnf pad _ (cluster_bboxes_pairwise bs2 pad))
  refine ⟨heq, ?_⟩
  intro b
  constructor
  · intro hb
    have hbm : b ∈ (↑(cluster_bboxes bs pad) : Multiset BBox) :=
      Multiset.mem_coe.mpr hb
    rw [heq] at hbm
    exact Multiset.mem_coe.mp hbm
  · intro hb
    have hbm : b ∈ (↑(cluster_bboxes bs2 pad) : Multiset BBox) :=
      Multiset.mem_coe.mpr hb
    rw [← heq] at hbm
    exact Multiset.mem_coe.mp hbm

theorem claim_C4_witness :
    List.Perm [(⟨0,0,1,1⟩ : BBox), ⟨0,0,2,2⟩, ⟨10,10,11,11⟩]
      [(⟨10,10,11,11⟩ : BBox), ⟨0,0,2,2⟩, ⟨0,0,1,1⟩] ∧
    (↑(cluster_bboxes [(⟨0,0,1,1⟩ : BBox), ⟨0,0,2,2⟩, ⟨10,10,11,11⟩] 2) : Multiset BBox)
      = ↑(cluster_bboxes [(⟨10,10,11,11⟩ : BBox), ⟨0,0,2,2⟩, ⟨0,0,1,1⟩] 2) := by
  have hp : List.Perm [(⟨0,0,1,1⟩ : BBox), ⟨0,0,2,2⟩, ⟨10,10,11,11⟩]
      [(⟨10,10,11,11⟩ : BBox), ⟨0,0,2,2⟩, ⟨0,0,1,1⟩] := by
    decide
  exact ⟨hp, (claim_C4 _ _ 2 hp).1⟩

theorem takeNumbers_length :
    ∀ (ts : List Token) (n : Nat) (ns : List ℚ) (r : List Token),
    takeNumbers ts n = .ok (ns, r) →
    ns.length + r.length ≤ ts.length ∧ ns.length ≤ n := by
  intro ts
  induction ts with
  | nil =>
    intro n ns r h
    cases n with
    | zero =>
      simp only [takeNumbers, Except.ok.injEq, Prod.mk.injEq] at h
      obtain ⟨h1, h2⟩ := h
      subst h1
      subst h2
      simp
    | succ n =>
      simp only [takeNumbers, Except.ok.injEq, Prod.mk.injEq] at h
      obtain ⟨h1, h2⟩ := h
      subst h1
      subst h2
      simp
  | cons t rest ih =>
    intro n ns r h
    cases n with
    | zero =>
      simp only [takeNumbers, Except.ok.injEq, Prod.mk.injEq] at h
      obtain ⟨h1, h2⟩ := h
      subst h1
      subst h2
      simp
    | succ n =>
      cases t with
      | cmd c => simp [takeNumbers] at h
      | num q =>
        revert h
        simp only [takeNumbers]
        rcases hrec : takeNumbers rest n with e | ⟨qs, r2⟩
        · intro h
          simp at h
        · intro h
          simp only [Except.ok.injEq, Prod.mk.injEq] at h
          obtain ⟨h1, h2⟩ := h
          subst h1
          subst h2
          obtain ⟨ha, hb⟩ := ih n qs r2 hrec
          constructor
          · simp only [List.length_cons]
            omega
          · simp only [List.length_cons]
            omega

theorem takeNumbers_exact :
    ∀ (qs : List ℚ) (rest : List Token),
    takeNumbers (qs.map Token.num ++ rest) qs.length = .ok (qs, rest) := by
  intro qs
  induction qs with
  | nil =>
    intro rest
    simp [takeNumbers]
  | cons q qs ih =>
    intro rest
    simp only [List.map_cons, List.cons_append, List.length_cons, takeNumbers,
      List.append_eq, ih]

theorem takeNumbers_all_short :
    ∀ (qs : List ℚ) (n : Nat), qs.length < n →
    takeNumbers (qs.map Token.num) n = .ok (qs, []) := by
  intro qs
  induction qs with
  | nil =>
    intro n hn
    cases n with
    | zero => omega
    | succ n => rfl
  | cons q qs ih =>
    intro n hn
    cases n with
    | zero => omega
    | succ n =>
      simp only [List.map_cons, takeNumbers]
      rw [ih n (by simpa [List.length_cons] using hn)]

theorem runAuxF_fuel_succ :
    ∀ (fuel : Nat) (ts : List Token) (oc : Option Char) (s : PState),
    ts.length ≤ fuel →
    runAuxF (fuel + 1) ts oc s = runAuxF fuel ts oc s := by
  intro fuel
  induction fuel with
  | zero =>
    intro ts oc s hts
    have : ts = [] := List.length_eq_zero.mp (Nat.le_zero.mp hts)
    subst this
    rfl
  | succ fuel ih =>
    intro ts oc s hts
    cases ts with
    | nil => rfl
    | cons t rest =>
      simp only [List.length_cons] at hts
      cases t with
      | cmd c =>
        simp only [runAuxF]
        by_cases hz : c = 'Z' ∨ c = 'z'
        · simp only [if_pos hz]
          exact ih rest (some c) _ (by omega)
        · simp only [if_neg hz]
          exact ih rest (some c) s (by omega)
      | num q =>
        cases oc with
        | none => rfl
        | some c =>
          simp only [runAuxF]
          by_cases h0 : arity c = 0
          · simp only [if_pos h0]
            exact ih rest (some c) s (by omega)
          · simp only [if_neg h0]
            rcases htake : takeNumbers (Token.num q :: rest) (arity c) with e | ⟨ns, rest2⟩
            · rfl
            · simp only []
              by_cases hlen : ns.length < arity c
              · simp only [if_pos hlen]
              · simp only [if_neg hlen]
                obtain ⟨hle, _⟩ := takeNumbers_length _ _ _ _ htake
                simp only [List.length_cons] at hle
                have h1 : 1 ≤ arity c := Nat.one_le_iff_ne_zero.mpr h0
                exact ih rest2 _ _ (by omega)

theorem runAuxF_fuel_ge :
    ∀ (fuel : Nat) (ts : List Token) (oc : Option Char) (s : PState),
    ts.length ≤ fuel →
    runAuxF fuel ts oc s = runAuxF ts.length ts oc s := by
  intro fuel
  induction fuel with
  | zero =>
    intro ts oc s hts
    have h0 : ts.length = 0 := by omega
    rw [h0]
  | succ fuel ih =>
    intro ts oc s hts
    rcases Nat.lt_or_ge ts.length (fuel + 1) with hlt | hge
    · have h1 : ts.length ≤ fuel := by omega
      rw [runAuxF_fuel_succ fuel ts oc s h1]
      exact ih ts oc s h1
    · have : ts.length = fuel + 1 := by omega
      rw [this]

theorem runAux_nil (oc : Option Char) (s : PState) : runAux [] oc s = .ok s := rfl

theorem runAux_cmd {c : Char} (hz : ¬(c = 'Z' ∨ c = 'z'))
    (rest : List Token) (oc : Option Char) (s : PState) :
    runAux (Token.cmd c :: rest) oc s = runAux rest (some c) s := by
  unfold runAux
  simp only [List.length_cons, runAuxF, if_neg hz]

theorem runAux_cmdZ {c : Char} (hz : c = 'Z' ∨ c = 'z')
    (rest : List Token) (oc : Option Char) (s : PState) :
    runAux (Token.cmd c :: rest) oc s
      = runAux rest (some c)
          (addPoint { s with x := s.startX, y := s.startY } s.startX s.startY) := by
  unfold runAux
  simp only [List.length_cons, runAuxF, if_pos hz]

theorem runAux_num_none (q : ℚ) (rest : List Token) (s : PState) :
    runAux (Token.num q :: rest) none s = .ok s := rfl

theorem runAux_num_skip {c : Char} (h0 : arity c = 0)
    (q : ℚ) (rest : List Token) (s : PState) :
    runAux (Token.num q :: rest) (some c) s = runAux rest (some c) s := by
  unfold runAux
  simp only [List.length_cons, runAuxF, if_pos h0]

theorem runAux_num_err {c : Char} (h0 : arity c ≠ 0) {q : ℚ} {rest : List Token}
    (htake : takeNumbers (Token.num q :: rest) (arity c) = .error ()) (s : PState) :
    runAux (Token.num q :: rest) (some c) s = .error () := by
  unfold runAux
  simp only [List.length_cons, runAuxF, if_neg h0, htake]

theorem runAux_num_short {c : Char} {q : ℚ} {rest : List Token}
    {ns : List ℚ} {rest2 : List Token} (h0 : arity c ≠ 0)
    (htake : takeNumbers (Token.num q :: rest) (arity c) = .ok (ns, rest2))
    (hlen : ns.length < arity c) (s : PState) :
    runAux (Token.num q :: rest) (some c) s = .ok s := by
  unfold runAux
  simp only [List.length_cons, runAuxF, if_neg h0, htake, if_pos hlen]

theorem runAux_num_go {c : Char} {q : ℚ} {rest : List Token}
    {ns : List ℚ} {rest2 : List Token} (h0 : arity c ≠ 0)
    (htake : takeNumbers (Token.num q :: rest) (arity c) = .ok (ns, rest2))
    (hlen : ¬ ns.length < arity c) (s : PState) :
    runAux (Token.num q :: rest) (some c) s
      = runAux rest2 (some (nextCmd c)) (applyCmd c ns s) := by
  unfold runAux
  simp only [List.length_cons, runAuxF, if_neg h0, htake, if_neg hlen]
  obtain ⟨hle, _⟩ := takeNumbers_length _ _ _ _ htake
  simp only [List.length_cons] at hle
  have h1 : 1 ≤ arity c := Nat.one_le_iff_ne_zero.mpr h0
  exact runAuxF_fuel_ge rest.length rest2 _ _ (by omega)

theorem nextCmd_not_close {c : Char} (hz : ¬(c = 'Z' ∨ c = 'z')) :
    ¬(nextCmd c = 'Z' ∨ nextCmd c = 'z') := by
  unfold nextCmd
  split
  · decide
  · split
    · decide
    · exact hz

/-- After a command's full arity is consumed, the continuation is exactly
as if the letter `nextCmd c` had been written out before the remaining
tokens: the implicit-repeat transition. -/
theorem implicit_repeat (c : Char) (qs : List ℚ) (rest : List Token)
    (oc : Option Char) (s : PState)
    (h0 : arity c ≠ 0) (hz : ¬(c = 'Z' ∨ c = 'z')) (hlen : qs.length = arity c) :
    runAux (Token.cmd c :: (qs.map Token.num ++ rest)) oc s
      = runAux (Token.cmd c :: (qs.map Token.num ++ Token.cmd (nextCmd c) :: rest)) oc s := by
  rw [runAux_cmd hz, runAux_cmd hz]
  cases qs with
  | nil =>
    rw [← hlen] at h0
    simp at h0
  | cons q qs2 =>
    have htake1 : takeNumbers ((q :: qs2).map Token.num ++ rest) (arity c)
        = .ok (q :: qs2, rest) := by
      rw [← hlen]
      exact takeNumbers_exact (q :: qs2) rest
    have htake2 : takeNumbers
        ((q :: qs2).map Token.num ++ Token.cmd (nextCmd c) :: rest) (arity c)
        = .ok (q :: qs2, Token.cmd (nextCmd c) :: rest) := by
      rw [← hlen]
      exact takeNumbers_exact (q :: qs2) _
    have hnotlt : ¬ (q :: qs2).length < arity c := by omega
    simp only [List.map_cons, List.cons_append] at htake1 htake2 ⊢
    rw [runAux_num_go h0 htake1 hnotlt, runAux_num_go h0 htake2 hnotlt]
    rw [runAux_cmd (nextCmd_not_close hz)]

/-- C6: after a command letter's fixed arity has been consumed once,
subsequent tokens are interpreted under an implicit repeat of the active
command — which is `L` (resp. `l`) after an `M` (resp. `m`), and the
command itself otherwise: interposing the letter `nextCmd c` explicitly
leaves the interpretation unchanged. -/
theorem claim_C6 :
    (nextCmd 'M' = 'L' ∧ nextCmd 'm' = 'l' ∧
      ∀ c : Char, c ≠ 'M' → c ≠ 'm' → nextCmd c = c) ∧
    (∀ (c : Char) (qs : List ℚ) (rest : List Token) (oc : Option Char) (s : PState),
      arity c ≠ 0 → ¬(c = 'Z' ∨ c = 'z') → qs.length = arity c →
      runAux (Token.cmd c :: (qs.map Token.num ++ rest)) oc s
        = runAux (Token.cmd c :: (qs.map Token.num ++ Token.cmd (nextCmd c) :: rest)) oc s) := by
  refine ⟨⟨rfl, rfl, ?_⟩, ?_⟩
  · intro c h1 h2
    simp [nextCmd, h1, h2]
  · intro c qs rest oc s h0 hz hlen
    exact implicit_repeat c qs rest oc s h0 hz hlen

theorem claim_C6_witness :
    (arity 'M' ≠ 0 ∧ ¬('M' = 'Z' ∨ 'M' = 'z') ∧ ([(1:ℚ), 2]).length = arity 'M') ∧
    runAux (Token.cmd 'M' :: ([(1:ℚ), 2].map Token.num ++ [Token.num 3, Token.num 4]))
        none initState
      = runAux (Token.cmd 'M' :: ([(1:ℚ), 2].map Token.num
          ++ Token.cmd (nextCmd 'M') :: [Token.num 3, Token.num 4])) none initState :=
  ⟨⟨by decide, by decide, by decide⟩,
   claim_C6.2 'M' [1, 2] [Token.num 3, Token.num 4] none initState
     (by decide) (by decide) (by decide)⟩

theorem addPoint_acc_ne (s : PState) (px py : ℚ) : (addPoint s px py).acc ≠ none := by
  unfold addPoint
  cases s.acc <;> simp

theorem addPoint_pts_ne (s : PState) (px py : ℚ) : (addPoint s px py).pts ≠ [] := by
  unfold addPoint
  simp

theorem addPoint_inv (s : PState) (px py : ℚ) :
    ((addPoint s px py).acc = none ↔ (addPoint s px py).pts = []) :=
  iff_of_false (addPoint_acc_ne s px py) (addPoint_pts_ne s px py)

theorem cmdMove_inv (c : Char) (ns : List ℚ) (s : PState)
    (h : s.acc = none ↔ s.pts = []) :
    ((cmdMove c ns s).acc = none ↔ (cmdMove c ns s).pts = []) := by
  unfold cmdMove
  split
  · exact addPoint_inv _ _ _
  · exact h

theorem cmdLine_inv (rel c : Char) (ns : List ℚ) (s : PState)
    (h : s.acc = none ↔ s.pts = []) :
    ((cmdLine rel c ns s).acc = none ↔ (cmdLine rel c ns s).pts = []) := by
  unfold cmdLine
  split
  · exact addPoint_inv _ _ _
  · exact h

theorem cmdHoriz_inv (c : Char) (ns : List ℚ) (s : PState)
    (h : s.acc = none ↔ s.pts = []) :
    ((cmdHoriz c ns s).acc = none ↔ (cmdHoriz c ns s).pts = []) := by
  unfold cmdHoriz
  split
  · exact addPoint_inv _ _ _
  · exact h

theorem cmdVert_inv (c : Char) (ns : List ℚ) (s : PState)
    (h : s.acc = none ↔ s.pts = []) :
    ((cmdVert c ns s).acc = none ↔ (cmdVert c ns s).pts = []) := by
  unfold cmdVert
  split
  · exact addPoint_inv _ _ _
  · exact h

theorem cmdCubic_inv (c : Char) (ns : List ℚ) (s : PState)
    (h : s.acc = none ↔ s.pts = []) :
    ((cmdCubic c ns s).acc = none ↔ (cmdCubic c ns s).pts = []) := by
  unfold cmdCubic
  split
  · exact addPoint_inv _ _ _
  · exact h

theorem cmdQuad_inv (rel c : Char) (ns : List ℚ) (s : PState)
    (h : s.acc = none ↔ s.pts = []) :
    ((cmdQuad rel c ns s).acc = none ↔ (cmdQuad rel c ns s).pts = []) := by
  unfold cmdQuad
  split
  · exact addPoint_inv _ _ _
  · exact h

theorem cmdArc_inv (c : Char) (ns : List ℚ) (s : PState)
    (h : s.acc = none ↔ s.pts = []) :
    ((cmdArc c ns s).acc = none ↔ (cmdArc c ns s).pts = []) := by
  unfold cmdArc
  split
  · exact addPoint_inv _ _ _
  · exact h

theorem applyCmd_inv (c : Char) (ns : List ℚ) (s : PState)
    (h : s.acc = none ↔ s.pts = []) :
    ((applyCmd c ns s).acc = none ↔ (applyCmd c ns s).pts = []) := by
  unfold applyCmd
  split_ifs
  all_goals
    first
      | exact cmdMove_inv _ _ _ h
      | exact cmdLine_inv _ _ _ _ h
      | exact cmdHoriz_inv _ _ _ h
      | exact cmdVert_inv _ _ _ h
      | exact cmdCubic_inv _ _ _ h
      | exact cmdQuad_inv _ _ _ _ h
      | exact cmdArc_inv _ _ _ h
      | exact h

/-- The acc/pts invariant: the accumulated bbox is absent exactly when the
trace of visited points is empty, preserved by the whole loop. -/
theorem runAuxF_inv :
    ∀ (fuel : Nat) (ts : List Token) (oc : Option Char) (s s2 : PState),
    runAuxF fuel ts oc s = .ok s2 →
    (s.acc = none ↔ s.pts = []) →
    (s2.acc = none ↔ s2.pts = []) := by
  intro fuel
  induction fuel with
  | zero =>
    intro ts oc s s2 h hinv
    simp only [runAuxF, Except.ok.injEq] at h
    subst h
    exact hinv
  | succ fuel ih =>
    intro ts oc s s2 h hinv
    cases ts with
    | nil =>
      simp only [runAuxF, Except.ok.injEq] at h
      subst h
      exact hinv
    | cons t rest =>
      cases t with
      | cmd c =>
        simp only [runAuxF] at h
        by_cases hz : c = 'Z' ∨ c = 'z'
        · rw [if_pos hz] at h
          exact ih _ _ _ _ h (addPoint_inv _ _ _)
        · rw [if_neg hz] at h
          exact ih _ _ _ _ h hinv
      | num q =>
        cases oc with
        | none =>
          simp only [runAuxF, Except.ok.injEq] at h
          subst h
          exact hinv
        | some c =>
          simp only [runAuxF] at h
          by_cases h0 : arity c = 0
          · rw [if_pos h0] at h
            exact ih _ _ _ _ h hinv
          · rw [if_neg h0] at h
            rcases htake : takeNumbers (Token.num q :: rest) (arity c) with e | ⟨ns, rest2⟩
            · simp only [htake] at h
              exact Except.noConfusion h
            · simp only [htake] at h
              by_cases hlen : ns.length < arity c
              · rw [if_pos hlen] at h
                simp only [Except.ok.injEq] at h
                subst h
                exact hinv
              · rw [if_neg hlen] at h
                exact ih _ _ _ _ h (applyCmd_inv c ns s hinv)

/-- C5 counterexample: the interpreter CAN raise to the caller.  On the
token stream of `"L 1 M 0 0"`, the `L` command consumes `1` and then hits
the letter `M` in its second argument slot, where Python executes
`float("M")` — an uncaught `ValueError`. -/
theorem claim_C5_counterexample :
    bbox_from_path [Token.cmd 'L', Token.num 1, Token.cmd 'M', Token.num 0, Token.num 0]
      = .error () := by
  rfl

/-- C5 (amended): the empty stream yields no BBox; a command whose numeric
arguments run out AT THE END of the stream fails soft, returning the state
(and bbox) accumulated so far; but a command letter occupying an expected
argument slot raises to the caller (`ValueError` from `float`, modelled
`.error`); and on every non-raising run the result is absent exactly when
no point was ever visited. -/
theorem claim_C5 :
    (bbox_from_path [] = .ok none) ∧
    (∀ (c : Char) (qs : List ℚ) (s : PState),
      arity c ≠ 0 → qs.length < arity c →
      runAux (qs.map Token.num) (some c) s = .ok s) ∧
    (∀ (c : Char) (q : ℚ) (rest : List Token) (s : PState),
      arity c ≠ 0 →
      takeNumbers (Token.num q :: rest) (arity c) = .error () →
      runAux (Token.num q :: rest) (some c) s = .error ()) ∧
    (∀ (ts : List Token) (s2 : PState),
      runAux ts none initState = .ok s2 →
      (bbox_from_path ts = .ok none ↔ s2.pts = [])) := by
  refine ⟨rfl, ?_, ?_, ?_⟩
  · intro c qs s h0 hlen
    cases qs with
    | nil => rfl
    | cons q qs2 =>
      have htake := takeNumbers_all_short (q :: qs2) (arity c) hlen
      rw [List.map_cons] at htake ⊢
      exact runAux_num_short h0 htake hlen s
  · intro c q rest s h0 htake
    exact runAux_num_err h0 htake s
  · intro ts s2 h
    cases ts with
    | nil =>
      have h2 : initState = s2 := by
        have := h
        rw [runAux_nil] at this
        exact Except.ok.inj this
      subst h2
      simp [bbox_from_path, initState]
    | cons t rest =>
      have hinv := runAuxF_inv (t :: rest).length (t :: rest) none initState s2 h
        (by simp [initState])
      unfold bbox_from_path
      simp only [List.isEmpty_cons, Bool.false_eq_true, if_false]
      rw [h]
      simp only [Except.ok.injEq]
      exact hinv

theorem claim_C5_witness :
    (arity 'L' ≠ 0 ∧ ([(5:ℚ)]).length < arity 'L') ∧
    runAux ([(5:ℚ)].map Token.num) (some 'L') initState = .ok initState ∧
    (bbox_from_path [Token.cmd 'M', Token.num 1, Token.num 2] = .ok none
      ↔ PState.pts ⟨1, 2, 1, 2, some ⟨1, 2, 1, 2⟩, [(1, 2)]⟩ = []) :=
  ⟨⟨by decide, by decide⟩,
   claim_C5.2.1 'L' [5] initState (by decide) (by decide),
   claim_C5.2.2.2 [Token.cmd 'M', Token.num 1, Token.num 2]
     ⟨1, 2, 1, 2, some ⟨1, 2, 1, 2⟩, [(1, 2)]⟩ (by rfl)⟩
